import Mathlib

/-!
Verification of the `EarliestDeadlineFirstAlgo` scheduling algorithm from the
`ML_evcharging` repository (tutorial notebook
`lesson2_implementing_a_custom_algorithm`).

The source is a Python class with a constructor storing an `_increment` and
setting `max_recompute = 1`, and a `schedule(active_evs)` method that
  * initialises a dict `{ev.station_id: [0] for ev in active_evs}`,
  * sorts the EVs by `estimated_departure` (Python `sorted`, a stable sort),
  * for each EV sets its station's entry to `[interface.max_pilot_signal(sid)]`
    and, while `interface.is_feasible(schedule, 0)` is false, decrements the
    entry by `_increment`, clamping to `[0]` and breaking out of the loop the
    moment the candidate falls below zero,
  * returns the dict.

The embedding below models Python numbers as `ℚ`, station ids as `String`,
the dict as an association list with Python-dict update semantics (update in
place if the key exists, else append), the stable sort as structural insertion
sort, and the unbounded `while` loop as a fuel-indexed recursion
(`rateSearch`) returning `none` on fuel exhaustion; a fuel bound sufficient
for every terminating run with positive increment is proved
(`rateSearch_isSome`).
-/

/-- One EV session as read by `schedule`: its station identifier and its
estimated departure time. -/
structure EV where
  station_id : String
  estimated_departure : ℚ
deriving DecidableEq

attribute [ext] EV

/-- A schedule: the Python dict mapping station ids to lists of rates,
modelled as an association list in insertion order. -/
abbrev Sched := List (String × List ℚ)

/-- Python dict assignment `d[k] = v`: replace the value at the (unique)
existing occurrence of `k`, keeping its position, or append `(k, v)` if `k`
is not a key. -/
def dictUpdate : Sched → String → List ℚ → Sched
  | [], k, v => [(k, v)]
  | p :: d, k, v => if p.1 = k then (k, v) :: d else p :: dictUpdate d k v

/-- Python dict lookup `d[k]`, as an `Option`. -/
def dictGet : Sched → String → Option (List ℚ)
  | [], _ => none
  | p :: d, k => if p.1 = k then some p.2 else dictGet d k

/-- The capability handle `self.interface`: the per-station hardware ceiling
`max_pilot_signal` and the pure feasibility oracle `is_feasible`. -/
structure Interface where
  max_pilot_signal : String → ℚ
  is_feasible : Sched → ℕ → Bool

/-- The algorithm object: the configured rate decrement `_increment` and the
declared `max_recompute`. -/
structure EarliestDeadlineFirstAlgo where
  _increment : ℚ
  max_recompute : ℕ

/-- The constructor `__init__(self, increment)`: stores the increment
unvalidated and sets `max_recompute = 1`. -/
def EarliestDeadlineFirstAlgo.init (increment : ℚ) : EarliestDeadlineFirstAlgo :=
  ⟨increment, 1⟩

/-- The sort key order used by `sorted(active_evs, key=lambda x:
x.estimated_departure)`. -/
def evLe (a b : EV) : Prop :=
  a.estimated_departure ≤ b.estimated_departure

instance : DecidableRel evLe := fun a b =>
  inferInstanceAs (Decidable (a.estimated_departure ≤ b.estimated_departure))

instance : IsTotal EV evLe :=
  ⟨fun a b => le_total a.estimated_departure b.estimated_departure⟩

instance : IsTrans EV evLe :=
  ⟨fun _ _ _ hab hbc => le_trans hab hbc⟩

/-- `sorted(active_evs, key=lambda x: x.estimated_departure)`: Python's
`sorted` is an ascending stable sort, embedded as structural insertion
sort. -/
def sortEVs (active_evs : List EV) : List EV :=
  List.insertionSort evLe active_evs

/-- The dict comprehension `{ev.station_id: [0] for ev in active_evs}`:
iterate over the list, assigning `[0]` to each station key. -/
def initSchedule (active_evs : List EV) : Sched :=
  active_evs.foldl (fun d ev => dictUpdate d ev.station_id [0]) []

/-- One step of the `while not ... is_feasible` loop body, fuel-indexed.
State `r` is the current candidate rate held in `schedule[sid][0]`; the
result carries the rate left in the dict when the loop exits, paired with the
number of `is_feasible` evaluations performed.  `none` means the fuel ran out
before the loop exited (the Python loop is unbounded; `rateSearch_isSome`
shows the fuel below suffices whenever the increment is positive). -/
def rateSearch (f : ℚ → Bool) (inc : ℚ) : ℕ → ℚ → Option (ℚ × ℕ)
  | 0, _ => none
  | fuel + 1, r =>
    if f r then some (r, 1)
    else if r - inc < 0 then some (0, 1)
    else (rateSearch f inc fuel (r - inc)).map (fun p => (p.1, p.2 + 1))

/-- Fuel sufficient for the loop to exit when the increment is positive. -/
def searchFuel (inc ub : ℚ) : ℕ :=
  (⌊ub / inc⌋).toNat + 1

/-- The rate/evaluation-count pair produced by the search loop started at the
upper bound `ub`, run with sufficient fuel. -/
def searchResult (f : ℚ → Bool) (inc ub : ℚ) : ℚ × ℕ :=
  (rateSearch f inc (searchFuel inc ub) ub).getD (0, 0)

/-- The rate the loop leaves committed for the station. -/
def searchRate (f : ℚ → Bool) (inc ub : ℚ) : ℚ :=
  (searchResult f inc ub).1

/-- The number of `is_feasible` evaluations the loop performs. -/
def searchCount (f : ℚ → Bool) (inc ub : ℚ) : ℕ :=
  (searchResult f inc ub).2

/-- The feasibility test the loop applies to candidate `q` for station `sid`:
`interface.is_feasible(schedule, 0)` where `schedule` is the current dict
with `sid` holding `[q]`. -/
def feasAt (I : Interface) (sched : Sched) (sid : String) (q : ℚ) : Bool :=
  I.is_feasible (dictUpdate sched sid [q]) 0

/-- The body of the `for ev in sorted_evs` loop: set the station's entry to
`[max_pilot_signal(sid)]` and run the decrement loop, leaving the final rate
committed. -/
def processEV (alg : EarliestDeadlineFirstAlgo) (I : Interface) (sched : Sched) (ev : EV) : Sched :=
  dictUpdate sched ev.station_id
    [searchRate (feasAt I sched ev.station_id) alg._increment
      (I.max_pilot_signal ev.station_id)]

/-- The `schedule(self, active_evs)` method: initial all-zero dict, stable
sort by estimated departure, then the per-EV search loop in sorted order.
The source method contains no `raise` and no error signalling of any kind;
it always returns the dict, so the embedding is a total function. -/
def EarliestDeadlineFirstAlgo.schedule (alg : EarliestDeadlineFirstAlgo) (I : Interface)
    (active_evs : List EV) : Sched :=
  (sortEVs active_evs).foldl (fun sched ev => processEV alg I sched ev)
    (initSchedule active_evs)

/-- State-passing form of `schedule`: the only caller-owned mutable data
reachable from the call is the `active_evs` list together with the fields of
the `EV` objects it holds.  Translating the method statement by statement
with that state threaded through, no statement of the source writes to the
list or to an EV (the dict comprehension, `sorted`, and the loop only read
`ev.station_id` and `x.estimated_departure`), so every step passes the state
through unchanged and the call returns it as received. -/
def EarliestDeadlineFirstAlgo.scheduleST (alg : EarliestDeadlineFirstAlgo) (I : Interface)
    (active_evs : List EV) : Sched × List EV :=
  ((sortEVs active_evs).foldl (fun sched ev => processEV alg I sched ev)
    (initSchedule active_evs), active_evs)

/-! ### Association-list (Python dict) lemmas -/

theorem dictGet_update_self (d : Sched) (k : String) (v : List ℚ) :
    dictGet (dictUpdate d k v) k = some v := by
  induction d with
  | nil => simp [dictUpdate, dictGet]
  | cons p d ih =>
    by_cases h : p.1 = k
    · simp [dictUpdate, dictGet, h]
    · simp [dictUpdate, dictGet, h, ih]

theorem dictGet_update_ne (d : Sched) {k s : String} (v : List ℚ) (h : s ≠ k) :
    dictGet (dictUpdate d k v) s = dictGet d s := by
  induction d with
  | nil => simp [dictUpdate, dictGet, Ne.symm h]
  | cons p d ih =>
    by_cases hp : p.1 = k
    · subst hp
      have hps : ¬p.1 = s := fun hh => h hh.symm
      simp [dictUpdate, dictGet, hps]
    · simp [dictUpdate, dictGet, hp, ih]

theorem isSome_dictGet_update (d : Sched) (k s : String) (v : List ℚ) :
    (dictGet (dictUpdate d k v) s).isSome ↔ s = k ∨ (dictGet d s).isSome := by
  by_cases h : s = k
  · subst h; simp [dictGet_update_self]
  · simp [dictGet_update_ne d v h, h]

theorem foldl_preserves {σ α : Type} (f : σ → α → σ) (P : σ → Prop) :
    ∀ (l : List α) (s : σ), P s → (∀ s' x, x ∈ l → P s' → P (f s' x)) → P (l.foldl f s) := by
  intro l
  induction l with
  | nil => intro s hs _; exact hs
  | cons a l ih =>
    intro s hs hstep
    exact ih (f s a) (hstep s a (by simp) hs)
      (fun s' x hx h => hstep s' x (List.mem_cons_of_mem a hx) h)

theorem dictGet_initFold (s : String) :
    ∀ (evs : List EV) (d : Sched),
      dictGet (evs.foldl (fun d ev => dictUpdate d ev.station_id [0]) d) s =
        if ∃ ev ∈ evs, ev.station_id = s then some [0] else dictGet d s := by
  intro evs
  induction evs with
  | nil => intro d; simp
  | cons ev evs ih =>
    intro d
    rw [List.foldl_cons, ih]
    by_cases hmem : ∃ e ∈ evs, e.station_id = s
    · simp [hmem]
    · by_cases hev : ev.station_id = s
      · simp only [hmem, if_false]
        rw [if_pos ⟨ev, List.mem_cons_self ev evs, hev⟩, ← hev, dictGet_update_self]
      · have hne : ¬∃ e ∈ ev :: evs, e.station_id = s := by
          rintro ⟨e, he, hes⟩
          rcases List.mem_cons.mp he with rfl | he'
          · exact hev hes
          · exact hmem ⟨e, he', hes⟩
        simp only [hmem, if_false, hne]
        exact dictGet_update_ne d [0] (fun hh => hev hh.symm)

theorem dictGet_initSchedule (evs : List EV) (s : String) :
    dictGet (initSchedule evs) s =
      if ∃ ev ∈ evs, ev.station_id = s then some [0] else none := by
  rw [initSchedule, dictGet_initFold]
  rfl

theorem mem_sortEVs {ev : EV} {evs : List EV} : ev ∈ sortEVs evs ↔ ev ∈ evs :=
  (List.perm_insertionSort evLe evs).mem_iff

/-! ### Rate-search loop lemmas -/

theorem floor_div_sub {inc : ℚ} (r : ℚ) (h : 0 < inc) :
    ⌊(r - inc) / inc⌋ = ⌊r / inc⌋ - 1 := by
  rw [sub_div, div_self (ne_of_gt h)]
  exact_mod_cast Int.floor_sub_int (r / inc) 1

theorem rateSearch_isSome (f : ℚ → Bool) {inc : ℚ} (h : 0 < inc) :
    ∀ (fuel : ℕ) (r : ℚ), (⌊r / inc⌋).toNat + 1 ≤ fuel → (rateSearch f inc fuel r).isSome := by
  intro fuel
  induction fuel with
  | zero => intro r hr; omega
  | succ fuel ih =>
    intro r hr
    rw [rateSearch]
    cases hf : f r with
    | true => simp
    | false =>
      simp only [Bool.false_eq_true, if_false]
      by_cases hneg : r - inc < 0
      · simp [hneg]
      · simp only [hneg, if_false, Option.isSome_map']
        apply ih
        have hri : 0 ≤ r - inc := not_lt.mp hneg
        have h1 : (1 : ℚ) ≤ r / inc := (one_le_div h).mpr (by linarith)
        have h2 : (1 : ℤ) ≤ ⌊r / inc⌋ := by
          rw [Int.le_floor]; exact_mod_cast h1
        rw [floor_div_sub r h]
        omega

theorem rateSearch_bounds {inc : ℚ} (h : 0 < inc) (f : ℚ → Bool) :
    ∀ (fuel : ℕ) (r q : ℚ) (n : ℕ), 0 ≤ r → rateSearch f inc fuel r = some (q, n) →
      0 ≤ q ∧ q ≤ r := by
  intro fuel
  induction fuel with
  | zero => intro r q n _ hr; simp [rateSearch] at hr
  | succ fuel ih =>
    intro r q n hr heq
    rw [rateSearch] at heq
    cases hf : f r with
    | true =>
      rw [hf] at heq
      simp only [if_true, Option.some.injEq, Prod.mk.injEq] at heq
      obtain ⟨rfl, -⟩ := heq
      exact ⟨hr, le_refl _⟩
    | false =>
      rw [hf] at heq
      simp only [Bool.false_eq_true, if_false] at heq
      by_cases hneg : r - inc < 0
      · simp only [hneg, if_true, Option.some.injEq, Prod.mk.injEq] at heq
        obtain ⟨rfl, -⟩ := heq
        exact ⟨le_refl _, hr⟩
      · simp only [hneg, if_false] at heq
        obtain ⟨⟨q', n'⟩, hp, hpe⟩ := Option.map_eq_some'.mp heq
        simp only [Prod.mk.injEq] at hpe
        obtain ⟨rfl, -⟩ := hpe
        have := ih (r - inc) q' n' (not_lt.mp hneg) hp
        exact ⟨this.1, by linarith [this.2]⟩

theorem rateSearch_count {inc : ℚ} (h : 0 < inc) (f : ℚ → Bool) :
    ∀ (fuel : ℕ) (r q : ℚ) (n : ℕ), 0 ≤ r → rateSearch f inc fuel r = some (q, n) →
      (n : ℤ) ≤ ⌊r / inc⌋ + 1 := by
  intro fuel
  induction fuel with
  | zero => intro r q n _ hr; simp [rateSearch] at hr
  | succ fuel ih =>
    intro r q n hr heq
    have hfl0 : (0 : ℤ) ≤ ⌊r / inc⌋ := Int.floor_nonneg.mpr (div_nonneg hr h.le)
    rw [rateSearch] at heq
    cases hf : f r with
    | true =>
      rw [hf] at heq
      simp only [if_true, Option.some.injEq, Prod.mk.injEq] at heq
      obtain ⟨-, rfl⟩ := heq
      omega
    | false =>
      rw [hf] at heq
      simp only [Bool.false_eq_true, if_false] at heq
      by_cases hneg : r - inc < 0
      · simp only [hneg, if_true, Option.some.injEq, Prod.mk.injEq] at heq
        obtain ⟨-, rfl⟩ := heq
        omega
      · simp only [hneg, if_false] at heq
        obtain ⟨⟨q', n'⟩, hp, hpe⟩ := Option.map_eq_some'.mp heq
        simp only [Prod.mk.injEq] at hpe
        obtain ⟨-, rfl⟩ := hpe
        have hub := ih (r - inc) q' n' (not_lt.mp hneg) hp
        rw [floor_div_sub r h] at hub
        push_cast
        omega

theorem rateSearch_verified_or_zero (f : ℚ → Bool) (inc : ℚ) :
    ∀ (fuel : ℕ) (r q : ℚ) (n : ℕ), rateSearch f inc fuel r = some (q, n) →
      f q = true ∨ q = 0 := by
  intro fuel
  induction fuel with
  | zero => intro r q n hr; simp [rateSearch] at hr
  | succ fuel ih =>
    intro r q n heq
    rw [rateSearch] at heq
    cases hf : f r with
    | true =>
      rw [hf] at heq
      simp only [if_true, Option.some.injEq, Prod.mk.injEq] at heq
      obtain ⟨rfl, -⟩ := heq
      exact Or.inl hf
    | false =>
      rw [hf] at heq
      simp only [Bool.false_eq_true, if_false] at heq
      by_cases hneg : r - inc < 0
      · simp only [hneg, if_true, Option.some.injEq, Prod.mk.injEq] at heq
        obtain ⟨rfl, -⟩ := heq
        exact Or.inr rfl
      · simp only [hneg, if_false] at heq
        obtain ⟨⟨q', n'⟩, hp, hpe⟩ := Option.map_eq_some'.mp heq
        simp only [Prod.mk.injEq] at hpe
        obtain ⟨rfl, -⟩ := hpe
        exact ih (r - inc) q' n' hp

theorem rateSearch_none_of_nonpos {f : ℚ → Bool} {inc : ℚ} (hinc : inc ≤ 0)
    (hrej : ∀ q, 0 ≤ q → f q = false) :
    ∀ (fuel : ℕ) (r : ℚ), 0 ≤ r → rateSearch f inc fuel r = none := by
  intro fuel
  induction fuel with
  | zero => intro r _; rfl
  | succ fuel ih =>
    intro r hr
    rw [rateSearch]
    rw [hrej r hr]
    have hge : ¬r - inc < 0 := not_lt.mpr (by linarith)
    simp only [Bool.false_eq_true, if_false, hge]
    rw [ih (r - inc) (by linarith)]
    rfl

theorem rateSearch_greatest {inc : ℚ} (h : 0 < inc) (f : ℚ → Bool) :
    ∀ (fuel : ℕ) (r q : ℚ) (n : ℕ),
      (∃ k : ℕ, 0 ≤ r - k * inc ∧ f (r - k * inc) = true) →
      rateSearch f inc fuel r = some (q, n) →
      ∃ k : ℕ, q = r - k * inc ∧ 0 ≤ q ∧ f q = true ∧
        ∀ j : ℕ, j < k → f (r - j * inc) = false := by
  intro fuel
  induction fuel with
  | zero => intro r q n _ hr; simp [rateSearch] at hr
  | succ fuel ih =>
    intro r q n hex heq
    rw [rateSearch] at heq
    cases hf : f r with
    | true =>
      rw [hf] at heq
      simp only [if_true, Option.some.injEq, Prod.mk.injEq] at heq
      obtain ⟨rfl, -⟩ := heq
      obtain ⟨k0, hk0, -⟩ := hex
      have hr0 : 0 ≤ r := by
        have : (k0 : ℚ) * inc ≥ 0 := mul_nonneg (Nat.cast_nonneg k0) h.le
        linarith
      exact ⟨0, by push_cast; ring, hr0, hf, fun j hj => absurd hj (Nat.not_lt_zero j)⟩
    | false =>
      rw [hf] at heq
      simp only [Bool.false_eq_true, if_false] at heq
      obtain ⟨k0, hk0, hk0f⟩ := hex
      have hk0pos : k0 ≠ 0 := by
        rintro rfl
        rw [show r - (0 : ℕ) * inc = r by push_cast; ring] at hk0f
        rw [hf] at hk0f
        exact Bool.false_ne_true hk0f
      by_cases hneg : r - inc < 0
      · exfalso
        have h1k : (1 : ℚ) ≤ (k0 : ℚ) := by exact_mod_cast Nat.one_le_iff_ne_zero.mpr hk0pos
        have : r - (k0 : ℚ) * inc ≤ r - inc := by nlinarith
        linarith
      · simp only [hneg, if_false] at heq
        obtain ⟨⟨q', n'⟩, hp, hpe⟩ := Option.map_eq_some'.mp heq
        simp only [Prod.mk.injEq] at hpe
        obtain ⟨rfl, -⟩ := hpe
        have hex' : ∃ k : ℕ, 0 ≤ (r - inc) - k * inc ∧ f ((r - inc) - k * inc) = true := by
          refine ⟨k0 - 1, ?_, ?_⟩
          · have : (r - inc) - ((k0 - 1 : ℕ) : ℚ) * inc = r - (k0 : ℚ) * inc := by
              have hc : ((k0 - 1 : ℕ) : ℚ) = (k0 : ℚ) - 1 := by
                push_cast [Nat.one_le_iff_ne_zero.mpr hk0pos]
                ring
              rw [hc]; ring
            rw [this]; exact hk0
          · have : (r - inc) - ((k0 - 1 : ℕ) : ℚ) * inc = r - (k0 : ℚ) * inc := by
              have hc : ((k0 - 1 : ℕ) : ℚ) = (k0 : ℚ) - 1 := by
                push_cast [Nat.one_le_iff_ne_zero.mpr hk0pos]
                ring
              rw [hc]; ring
            rw [this]; exact hk0f
        obtain ⟨k', hk'e, hk'0, hk'f, hk'max⟩ := ih (r - inc) q' n' hex' hp
        refine ⟨k' + 1, ?_, hk'0, hk'f, ?_⟩
        · rw [hk'e]; push_cast; ring
        · intro j hj
          cases j with
          | zero =>
            rw [show r - (0 : ℕ) * inc = r by push_cast; ring]
            exact hf
          | succ j' =>
            have := hk'max j' (by omega)
            rw [show (r - inc) - (j' : ℚ) * inc = r - ((j' + 1 : ℕ) : ℚ) * inc by push_cast; ring] at this
            exact this

theorem searchResult_eq {inc : ℚ} (h : 0 < inc) (f : ℚ → Bool) (ub : ℚ) :
    rateSearch f inc (searchFuel inc ub) ub =
      some (searchRate f inc ub, searchCount f inc ub) := by
  have hs := rateSearch_isSome f h (searchFuel inc ub) ub (le_refl _)
  obtain ⟨⟨q, n⟩, hp⟩ := Option.isSome_iff_exists.mp hs
  rw [searchRate, searchCount, searchResult, hp]
  rfl

theorem searchRate_bounds {inc ub : ℚ} (h : 0 < inc) (hub : 0 ≤ ub) (f : ℚ → Bool) :
    0 ≤ searchRate f inc ub ∧ searchRate f inc ub ≤ ub :=
  rateSearch_bounds h f (searchFuel inc ub) ub _ _ hub (searchResult_eq h f ub)

theorem searchRate_verified_or_zero {inc : ℚ} (h : 0 < inc) (f : ℚ → Bool) (ub : ℚ) :
    f (searchRate f inc ub) = true ∨ searchRate f inc ub = 0 :=
  rateSearch_verified_or_zero f inc (searchFuel inc ub) ub _ _ (searchResult_eq h f ub)

theorem searchFuel_zero (inc : ℚ) : searchFuel inc 0 = 1 := by
  rw [searchFuel, zero_div, Int.floor_zero]
  rfl

theorem searchResult_ub_zero {inc : ℚ} (h : 0 < inc) (f : ℚ → Bool) :
    searchResult f inc 0 = (0, 1) := by
  rw [searchResult, searchFuel_zero inc, rateSearch]
  cases hf : f 0 with
  | true => rfl
  | false =>
    simp only [Bool.false_eq_true, if_false, zero_sub, neg_neg]
    rw [if_pos (by linarith : -inc < 0)]
    rfl

theorem dictGet_processEV (alg : EarliestDeadlineFirstAlgo) (I : Interface) (d : Sched)
    (ev : EV) (s : String) :
    dictGet (processEV alg I d ev) s =
      if s = ev.station_id
      then some [searchRate (feasAt I d ev.station_id) alg._increment
        (I.max_pilot_signal ev.station_id)]
      else dictGet d s := by
  by_cases h : s = ev.station_id
  · subst h
    rw [processEV, dictGet_update_self, if_pos rfl]
  · rw [processEV, dictGet_update_ne _ _ h, if_neg h]

/-! ### Stability of the sort -/

theorem filter_orderedInsert (d : ℚ) (a : EV) (l : List EV) :
    (List.orderedInsert evLe a l).filter (fun e => e.estimated_departure = d) =
      if a.estimated_departure = d
      then a :: l.filter (fun e => e.estimated_departure = d)
      else l.filter (fun e => e.estimated_departure = d) := by
  induction l with
  | nil =>
    by_cases had : a.estimated_departure = d
    · simp [List.orderedInsert, List.filter, had]
    · simp [List.orderedInsert, List.filter, had]
  | cons b l ih =>
    by_cases hab : evLe a b
    · rw [List.orderedInsert, if_pos hab]
      by_cases had : a.estimated_departure = d
      · simp [List.filter_cons, had]
      · simp [List.filter_cons, had]
    · rw [List.orderedInsert, if_neg hab]
      have hba : b.estimated_departure < a.estimated_departure :=
        lt_of_not_le hab
      by_cases had : a.estimated_departure = d
      · have hbd : ¬b.estimated_departure = d := by
          rw [← had]; exact ne_of_lt hba
        simp [List.filter_cons, hbd, ih, had]
      · by_cases hbd : b.estimated_departure = d
        · simp [List.filter_cons, hbd, ih, had]
        · simp [List.filter_cons, hbd, ih, had]

theorem filter_sortEVs (d : ℚ) (evs : List EV) :
    (sortEVs evs).filter (fun e => e.estimated_departure = d) =
      evs.filter (fun e => e.estimated_departure = d) := by
  induction evs with
  | nil => rfl
  | cons a l ih =>
    rw [sortEVs, List.insertionSort] at *
    rw [filter_orderedInsert]
    by_cases had : a.estimated_departure = d
    · simp [List.filter_cons, had, ih]
    · simp [List.filter_cons, had, ih]

theorem sorted_sortEVs (evs : List EV) : List.Sorted evLe (sortEVs evs) :=
  List.sorted_insertionSort evLe evs

/-! ### Schedule-level helper lemmas -/

theorem searchRate_rejectAll {inc ub : ℚ} (h : 0 < inc) :
    searchRate (fun _ => false) inc ub = 0 := by
  rcases searchRate_verified_or_zero h (fun _ => false) ub with hv | hz
  · exact absurd hv Bool.false_ne_true
  · exact hz

theorem schedule_all_zero_of_rejectAll (alg : EarliestDeadlineFirstAlgo) (I : Interface)
    (hinc : 0 < alg._increment) (hrej : ∀ d t, I.is_feasible d t = false) (evs : List EV) :
    ∀ s v, dictGet (alg.schedule I evs) s = some v → v = [0] := by
  rw [EarliestDeadlineFirstAlgo.schedule]
  refine foldl_preserves _ (fun d => ∀ s v, dictGet d s = some v → v = [0]) _ _ ?_ ?_
  · intro s v hv
    rw [dictGet_initSchedule] at hv
    by_cases hs : ∃ ev ∈ evs, ev.station_id = s
    · rw [if_pos hs] at hv
      exact (Option.some.inj hv).symm
    · rw [if_neg hs] at hv
      cases hv
  · intro d ev _ hP s v hv
    rw [dictGet_processEV] at hv
    by_cases hs : s = ev.station_id
    · rw [if_pos hs] at hv
      have hrate : searchRate (feasAt I d ev.station_id) alg._increment
          (I.max_pilot_signal ev.station_id) = 0 := by
        rcases searchRate_verified_or_zero hinc (feasAt I d ev.station_id)
            (I.max_pilot_signal ev.station_id) with hverif | hzero
        · rw [feasAt, hrej] at hverif
          exact absurd hverif Bool.false_ne_true
        · exact hzero
      rw [hrate] at hv
      exact (Option.some.inj hv).symm
    · rw [if_neg hs] at hv
      exact hP s v hv

theorem schedule_keys (alg : EarliestDeadlineFirstAlgo) (I : Interface) (evs : List EV)
    (s : String) :
    (dictGet (alg.schedule I evs) s).isSome ↔ ∃ ev ∈ evs, ev.station_id = s := by
  rw [EarliestDeadlineFirstAlgo.schedule]
  refine foldl_preserves _
    (fun d => ((dictGet d s).isSome ↔ ∃ ev ∈ evs, ev.station_id = s)) _ _ ?_ ?_
  · show (dictGet (initSchedule evs) s).isSome ↔ ∃ ev ∈ evs, ev.station_id = s
    rw [dictGet_initSchedule]
    by_cases hs : ∃ ev ∈ evs, ev.station_id = s
    · simp [hs]
    · simp [hs]
  · intro d ev hev hP
    show (dictGet (processEV alg I d ev) s).isSome ↔ ∃ ev ∈ evs, ev.station_id = s
    rw [dictGet_processEV]
    by_cases hs : s = ev.station_id
    · rw [if_pos hs]
      simp only [Option.isSome_some, true_iff]
      exact ⟨ev, mem_sortEVs.mp hev, hs.symm⟩
    · rw [if_neg hs]
      exact hP

theorem schedule_values_length (alg : EarliestDeadlineFirstAlgo) (I : Interface)
    (evs : List EV) :
    ∀ s v, dictGet (alg.schedule I evs) s = some v → v.length = 1 := by
  rw [EarliestDeadlineFirstAlgo.schedule]
  refine foldl_preserves _ (fun d => ∀ s v, dictGet d s = some v → v.length = 1) _ _ ?_ ?_
  · intro s v hv
    rw [dictGet_initSchedule] at hv
    by_cases hs : ∃ ev ∈ evs, ev.station_id = s
    · rw [if_pos hs] at hv
      rw [← Option.some.inj hv]
      rfl
    · rw [if_neg hs] at hv
      cases hv
  · intro d ev _ hP s v hv
    rw [dictGet_processEV] at hv
    by_cases hs : s = ev.station_id
    · rw [if_pos hs] at hv
      rw [← Option.some.inj hv]
      rfl
    · rw [if_neg hs] at hv
      exact hP s v hv

/-! ### Concrete instances used by counterexamples and witnesses -/

/-- The EV used in concrete runs: station "A", estimated departure 0. -/
def evA : EV := ⟨"A", 0⟩

/-- An oracle that rejects every schedule (monotone, and a violation of the
zero-baseline invariant); every station ceiling is 1. -/
def IRejectAll : Interface := ⟨fun _ => 1, fun _ _ => false⟩

/-- An always-rejecting oracle whose station ceiling is 5; with increment 2
the tested grid is 5, 3, 1 and the clamp commits 0, which is not on the
grid. -/
def IRej5 : Interface := ⟨fun _ => 5, fun _ _ => false⟩

/-- An oracle with ceiling 2 accepting exactly the schedules whose rate at
station "A" is at most 1. -/
def ICap : Interface :=
  ⟨fun _ => 2,
   fun d _ =>
     match dictGet d "A" with
     | some (q :: _) => decide (q ≤ 1)
     | _ => true⟩

/-- An oracle that accepts everything, with every station ceiling 0. -/
def IZeroCeil : Interface := ⟨fun _ => 0, fun _ _ => true⟩

/-! ### Claim theorems -/

/-- C1 counterexample: with positive increment 2, ceiling 5, and the (monotone)
oracle that rejects every schedule, the loop tests the grid 5, 3, 1, then clamps
and commits rate 0 — which the oracle does not accept, and which is not an
accepted value of the form `max_pilot - k*increment` in `[0, max_pilot]` (no
such accepted value exists), contradicting the claim. -/
theorem C1_counterexample :
    processEV (EarliestDeadlineFirstAlgo.init 2) IRej5 (initSchedule [evA]) evA =
      dictUpdate (initSchedule [evA]) "A" [0] ∧
    feasAt IRej5 (initSchedule [evA]) "A" 0 = false := by
  constructor
  · show dictUpdate (initSchedule [evA]) "A" [searchRate (fun _ => false) 2 5] =
      dictUpdate (initSchedule [evA]) "A" [0]
    rw [searchRate_rejectAll two_pos]
  · rfl

/-- C1 (amended): for every EV processed, with positive increment and an oracle
monotone in this station's rate, *provided some* rate of the form
`max_pilot - k*increment` in `[0, max_pilot]` is accepted by the oracle, the
rate committed for the station is the greatest such accepted value: the oracle
accepts it and rejected every tested rate above it.  (Without that proviso the
loop clamps to 0 and commits it without oracle acceptance.) -/
theorem C1_committed_rate_greatest (alg : EarliestDeadlineFirstAlgo) (I : Interface)
    (sched : Sched) (ev : EV) (hinc : 0 < alg._increment)
    (_hmono : ∀ q q' : ℚ, 0 ≤ q' → q' ≤ q →
      feasAt I sched ev.station_id q = true → feasAt I sched ev.station_id q' = true)
    (hex : ∃ k : ℕ, 0 ≤ I.max_pilot_signal ev.station_id - k * alg._increment ∧
      feasAt I sched ev.station_id
        (I.max_pilot_signal ev.station_id - k * alg._increment) = true) :
    ∃ k : ℕ,
      processEV alg I sched ev =
        dictUpdate sched ev.station_id
          [I.max_pilot_signal ev.station_id - k * alg._increment] ∧
      0 ≤ I.max_pilot_signal ev.station_id - k * alg._increment ∧
      feasAt I sched ev.station_id
        (I.max_pilot_signal ev.station_id - k * alg._increment) = true ∧
      ∀ j : ℕ, j < k →
        feasAt I sched ev.station_id
          (I.max_pilot_signal ev.station_id - j * alg._increment) = false := by
  obtain ⟨k, hke, hk0, hkf, hkmax⟩ :=
    rateSearch_greatest hinc (feasAt I sched ev.station_id) _ _ _ _ hex
      (searchResult_eq hinc (feasAt I sched ev.station_id)
        (I.max_pilot_signal ev.station_id))
  refine ⟨k, ?_, hke ▸ hk0, hke ▸ hkf, hkmax⟩
  rw [processEV, hke]

/-- Witness for C1: increment 1, ceiling 2, oracle accepting exactly rates ≤ 1
at station "A"; the committed rate is 2 - 1·1 = 1. -/
theorem C1_committed_rate_greatest_witness :
    ∃ k : ℕ,
      processEV (EarliestDeadlineFirstAlgo.init 1) ICap (initSchedule [evA]) evA =
        dictUpdate (initSchedule [evA]) evA.station_id
          [ICap.max_pilot_signal evA.station_id -
            k * (EarliestDeadlineFirstAlgo.init 1)._increment] ∧
      0 ≤ ICap.max_pilot_signal evA.station_id -
        k * (EarliestDeadlineFirstAlgo.init 1)._increment ∧
      feasAt ICap (initSchedule [evA]) evA.station_id
        (ICap.max_pilot_signal evA.station_id -
          k * (EarliestDeadlineFirstAlgo.init 1)._increment) = true ∧
      ∀ j : ℕ, j < k →
        feasAt ICap (initSchedule [evA]) evA.station_id
          (ICap.max_pilot_signal evA.station_id -
            j * (EarliestDeadlineFirstAlgo.init 1)._increment) = false := by
  refine C1_committed_rate_greatest (EarliestDeadlineFirstAlgo.init 1) ICap
    (initSchedule [evA]) evA (by decide) ?_ ?_
  · intro q q' h0 hle hq
    show decide (q' ≤ 1) = true
    have hq1 : q ≤ 1 := of_decide_eq_true hq
    exact decide_eq_true (le_trans hle hq1)
  · refine ⟨1, ?_, ?_⟩
    · show (0 : ℚ) ≤ 2 - (1 : ℕ) * 1
      simp
    · show decide (((2 : ℚ) - (1 : ℕ) * 1) ≤ 1) = true
      rw [decide_eq_true_eq]
      simp [one_add_one_eq_two]

/-- C2 counterexample: the oracle rejecting even the all-zero schedule does not
make `schedule()` raise — the source contains no error signalling at all — and
the call returns the all-zero schedule, which the oracle has not accepted. -/
theorem C2_counterexample :
    (EarliestDeadlineFirstAlgo.init 1).schedule IRejectAll [evA] = [("A", [0])] ∧
    IRejectAll.is_feasible ((EarliestDeadlineFirstAlgo.init 1).schedule IRejectAll [evA]) 0 =
      false := by
  constructor
  · show dictUpdate [("A", [0])] "A" [searchRate (fun _ => false) 1 1] = [("A", [0])]
    rw [searchRate_rejectAll one_pos]
    rfl
  · rfl

/-- C2 (amended): if the oracle rejects every schedule (in particular the
all-zero baseline), `schedule()` does not signal any error: it returns
normally, every committed rate is the clamped 0, and the returned schedule is
one the oracle has not accepted. -/
theorem C2_infeasible_baseline_returns (alg : EarliestDeadlineFirstAlgo) (I : Interface)
    (evs : List EV) (hinc : 0 < alg._increment)
    (hrej : ∀ d t, I.is_feasible d t = false) :
    (∀ s v, dictGet (alg.schedule I evs) s = some v → v = [0]) ∧
    I.is_feasible (alg.schedule I evs) 0 = false :=
  ⟨schedule_all_zero_of_rejectAll alg I hinc hrej evs, hrej _ _⟩

/-- Witness for C2 at increment 1, station "A", always-rejecting oracle. -/
theorem C2_infeasible_baseline_returns_witness :
    dictGet ((EarliestDeadlineFirstAlgo.init 1).schedule IRejectAll [evA]) "A" = some [0] ∧
    IRejectAll.is_feasible ((EarliestDeadlineFirstAlgo.init 1).schedule IRejectAll [evA]) 0 =
      false := by
  have h := C2_infeasible_baseline_returns (EarliestDeadlineFirstAlgo.init 1) IRejectAll
    [evA] (by decide) (fun _ _ => rfl)
  obtain ⟨v, hv⟩ := Option.isSome_iff_exists.mp
    ((schedule_keys (EarliestDeadlineFirstAlgo.init 1) IRejectAll [evA] "A").mpr
      ⟨evA, List.mem_cons_self evA [], rfl⟩)
  have hv0 := h.1 "A" v hv
  rw [hv0] at hv
  exact ⟨hv, h.2⟩

/-- C3 counterexample: the final committed rate 0 for station "A" was clamped,
not verified: the (pure) oracle rejects the returned schedule, so no oracle
call can have verified it feasible before `schedule()` returned. -/
theorem C3_counterexample :
    processEV (EarliestDeadlineFirstAlgo.init 1) IRejectAll (initSchedule [evA]) evA =
      [("A", [0])] ∧
    IRejectAll.is_feasible [("A", [0])] 0 = false := by
  constructor
  · show dictUpdate (initSchedule [evA]) "A" [searchRate (fun _ => false) 1 1] = [("A", [0])]
    rw [searchRate_rejectAll one_pos]
    rfl
  · rfl

/-- C3 (amended): each committed rate either was verified — the loop exited
through a feasibility test, so the oracle accepts the resulting partial
schedule — or is the clamped 0, which is committed without any verification of
the resulting schedule. -/
theorem C3_verified_or_clamped (alg : EarliestDeadlineFirstAlgo) (I : Interface)
    (sched : Sched) (ev : EV) (hinc : 0 < alg._increment) :
    I.is_feasible (processEV alg I sched ev) 0 = true ∨
      processEV alg I sched ev = dictUpdate sched ev.station_id [0] := by
  rcases searchRate_verified_or_zero hinc (feasAt I sched ev.station_id)
      (I.max_pilot_signal ev.station_id) with hv | hz
  · left
    exact hv
  · right
    rw [processEV, hz]

/-- Witness for C3 at increment 1, empty partial schedule, always-rejecting
oracle. -/
theorem C3_verified_or_clamped_witness :
    IRejectAll.is_feasible
        (processEV (EarliestDeadlineFirstAlgo.init 1) IRejectAll [] evA) 0 = true ∨
      processEV (EarliestDeadlineFirstAlgo.init 1) IRejectAll [] evA =
        dictUpdate [] evA.station_id [0] :=
  C3_verified_or_clamped (EarliestDeadlineFirstAlgo.init 1) IRejectAll [] evA (by decide)

/-- C4: with positive increment and non-negative pilot-signal ceilings, every
rate in the returned schedule lies in `[0, max_pilot_signal(station_id)]`:
candidates decrease from the ceiling and are clamped to exactly 0 rather than
ever being committed negative. -/
theorem C4_rates_bounded (alg : EarliestDeadlineFirstAlgo) (I : Interface) (evs : List EV)
    (hinc : 0 < alg._increment) (hmp : ∀ s, 0 ≤ I.max_pilot_signal s) :
    ∀ s v, dictGet (alg.schedule I evs) s = some v →
      ∀ r ∈ v, 0 ≤ r ∧ r ≤ I.max_pilot_signal s := by
  rw [EarliestDeadlineFirstAlgo.schedule]
  refine foldl_preserves _
    (fun d => ∀ s v, dictGet d s = some v → ∀ r ∈ v, 0 ≤ r ∧ r ≤ I.max_pilot_signal s)
    _ _ ?_ ?_
  · intro s v hv r hr
    rw [dictGet_initSchedule] at hv
    by_cases hs : ∃ ev ∈ evs, ev.station_id = s
    · rw [if_pos hs] at hv
      have hv0 := (Option.some.inj hv).symm
      subst hv0
      have hr0 : r = 0 := List.mem_singleton.mp hr
      subst hr0
      exact ⟨le_refl 0, hmp s⟩
    · rw [if_neg hs] at hv
      cases hv
  · intro d ev _ hP s v hv r hr
    rw [dictGet_processEV] at hv
    by_cases hs : s = ev.station_id
    · rw [if_pos hs] at hv
      have hv0 := (Option.some.inj hv).symm
      subst hv0
      have hrr : r = searchRate (feasAt I d ev.station_id) alg._increment
          (I.max_pilot_signal ev.station_id) := List.mem_singleton.mp hr
      subst hrr
      subst hs
      exact searchRate_bounds hinc (hmp ev.station_id) (feasAt I d ev.station_id)
    · rw [if_neg hs] at hv
      exact hP s v hv r hr

/-- Witness for C4: increment 1, ceiling 1, always-rejecting oracle; the
committed rate 0 at station "A" lies in `[0, 1]`. -/
theorem C4_rates_bounded_witness :
    (0 : ℚ) ≤ 0 ∧ (0 : ℚ) ≤ IRejectAll.max_pilot_signal "A" := by
  have h := C4_rates_bounded (EarliestDeadlineFirstAlgo.init 1) IRejectAll [evA]
    (by decide) (by intro s; show (0 : ℚ) ≤ 1; decide)
  obtain ⟨v, hv⟩ := Option.isSome_iff_exists.mp
    ((schedule_keys (EarliestDeadlineFirstAlgo.init 1) IRejectAll [evA] "A").mpr
      ⟨evA, List.mem_cons_self evA [], rfl⟩)
  have hv0 := schedule_all_zero_of_rejectAll (EarliestDeadlineFirstAlgo.init 1) IRejectAll
    (by decide) (fun _ _ => rfl) [evA] "A" v hv
  subst hv0
  exact h "A" [0] hv 0 (List.mem_singleton.mpr rfl)

/-- C5: the processing order of `schedule()` (the sorted list it folds over)
is ascending in `estimated_departure`, stable — EVs with any given departure
time appear in their input order — and an EV with strictly earlier departure
is processed strictly before one with a later departure. -/
theorem C5_sorted_stable (evs : List EV) :
    List.Sorted evLe (sortEVs evs) ∧
    (∀ d : ℚ, (sortEVs evs).filter (fun e => e.estimated_departure = d) =
      evs.filter (fun e => e.estimated_departure = d)) ∧
    ∀ (i j : ℕ) (hi : i < (sortEVs evs).length) (hj : j < (sortEVs evs).length),
      ((sortEVs evs).get ⟨i, hi⟩).estimated_departure <
        ((sortEVs evs).get ⟨j, hj⟩).estimated_departure → i < j := by
  refine ⟨sorted_sortEVs evs, fun d => filter_sortEVs d evs, ?_⟩
  intro i j hi hj hlt
  by_contra hij
  push_neg at hij
  rcases lt_or_eq_of_le hij with hji | hji
  · have hp := List.pairwise_iff_get.mp (sorted_sortEVs evs) ⟨j, hj⟩ ⟨i, hi⟩
      (Fin.mk_lt_mk.mpr hji)
    exact absurd hlt (not_lt.mpr hp)
  · subst hji
    exact absurd hlt (lt_irrefl _)

/-- Witness for C5: input `[⟨"B", 1⟩, ⟨"A", 0⟩]`; the EV with departure 0 is
processed before the EV with departure 1. -/
theorem C5_sorted_stable_witness : (0 : ℕ) < 1 := by
  have h := (C5_sorted_stable [⟨"B", 1⟩, ⟨"A", 0⟩]).2.2 0 1 (by decide) (by decide)
  exact h (by decide)

/-- C6: the returned dict's key set is exactly the station ids of the input
EVs; the initial dict maps every such station to `[0]`; every value in the
returned dict is a list of length exactly 1; and the constructor declares
`max_recompute = 1`. -/
theorem C6_schedule_shape (alg : EarliestDeadlineFirstAlgo) (I : Interface) (evs : List EV) :
    (∀ s, (dictGet (alg.schedule I evs) s).isSome ↔ ∃ ev ∈ evs, ev.station_id = s) ∧
    (∀ s, (∃ ev ∈ evs, ev.station_id = s) → dictGet (initSchedule evs) s = some [0]) ∧
    (∀ s v, dictGet (alg.schedule I evs) s = some v → v.length = 1) ∧
    ∀ increment : ℚ, (EarliestDeadlineFirstAlgo.init increment).max_recompute = 1 := by
  refine ⟨schedule_keys alg I evs, ?_, schedule_values_length alg I evs, fun _ => rfl⟩
  intro s hs
  rw [dictGet_initSchedule, if_pos hs]

/-- Witness for C6 at increment 1, station "A", always-rejecting oracle. -/
theorem C6_schedule_shape_witness :
    (dictGet ((EarliestDeadlineFirstAlgo.init 1).schedule IRejectAll [evA]) "A").isSome ∧
    dictGet (initSchedule [evA]) "A" = some [0] ∧
    (EarliestDeadlineFirstAlgo.init 1).max_recompute = 1 := by
  obtain ⟨hkeys, hinit, hlen, hmr⟩ :=
    C6_schedule_shape (EarliestDeadlineFirstAlgo.init 1) IRejectAll [evA]
  exact ⟨(hkeys "A").mpr ⟨evA, List.mem_cons_self evA [], rfl⟩,
    hinit "A" ⟨evA, List.mem_cons_self evA [], rfl⟩, hmr 1⟩

/-- C7: `schedule()` is deterministic: two calls on element-wise identical
EV lists (same station ids and estimated departures in the same order)
against the same pure oracle return equal schedules. -/
theorem C7_deterministic (alg : EarliestDeadlineFirstAlgo) (I : Interface)
    (evs₁ evs₂ : List EV) (hlen : evs₁.length = evs₂.length)
    (hfields : ∀ (i : ℕ) (h₁ : i < evs₁.length) (h₂ : i < evs₂.length),
      (evs₁.get ⟨i, h₁⟩).station_id = (evs₂.get ⟨i, h₂⟩).station_id ∧
      (evs₁.get ⟨i, h₁⟩).estimated_departure = (evs₂.get ⟨i, h₂⟩).estimated_departure) :
    alg.schedule I evs₁ = alg.schedule I evs₂ := by
  have heq : evs₁ = evs₂ := by
    apply List.ext_get hlen
    intro i h₁ h₂
    have h := hfields i h₁ h₂
    exact EV.ext h.1 h.2
  rw [heq]

/-- Witness for C7 on the one-element list at station "A". -/
theorem C7_deterministic_witness :
    (EarliestDeadlineFirstAlgo.init 1).schedule IRejectAll [evA] =
      (EarliestDeadlineFirstAlgo.init 1).schedule IRejectAll [evA] :=
  C7_deterministic (EarliestDeadlineFirstAlgo.init 1) IRejectAll [evA] [evA] rfl
    (fun _ _ _ => ⟨rfl, rfl⟩)

/-- C8: a station whose pilot-signal ceiling is 0 is committed rate 0, and the
search loop performs exactly one feasibility evaluation for that EV. -/
theorem C8_zero_ceiling (alg : EarliestDeadlineFirstAlgo) (I : Interface) (sched : Sched)
    (ev : EV) (hinc : 0 < alg._increment)
    (h0 : I.max_pilot_signal ev.station_id = 0) :
    processEV alg I sched ev = dictUpdate sched ev.station_id [0] ∧
    searchCount (feasAt I sched ev.station_id) alg._increment
      (I.max_pilot_signal ev.station_id) = 1 := by
  have hres := searchResult_ub_zero hinc (feasAt I sched ev.station_id)
  constructor
  · rw [processEV, h0, searchRate, hres]
  · rw [h0, searchCount, hres]

/-- Witness for C8: increment 1, all ceilings 0, always-accepting oracle. -/
theorem C8_zero_ceiling_witness :
    processEV (EarliestDeadlineFirstAlgo.init 1) IZeroCeil [] evA =
      dictUpdate [] evA.station_id [0] ∧
    searchCount (feasAt IZeroCeil [] evA.station_id)
      (EarliestDeadlineFirstAlgo.init 1)._increment
      (IZeroCeil.max_pilot_signal evA.station_id) = 1 :=
  C8_zero_ceiling (EarliestDeadlineFirstAlgo.init 1) IZeroCeil [] evA (by decide) rfl

/-- C9: `schedule()` has no side effect beyond its return value: in the
state-passing embedding `scheduleST`, which threads the caller's `active_evs`
list through every translated statement, the list comes back unchanged while
the returned dict is exactly the `schedule` result. -/
theorem C9_no_mutation (alg : EarliestDeadlineFirstAlgo) (I : Interface) (evs : List EV) :
    (alg.scheduleST I evs).2 = evs ∧ (alg.scheduleST I evs).1 = alg.schedule I evs :=
  ⟨rfl, rfl⟩

/-- C10 counterexample: with increment 1 and a negative ceiling -1 the loop
performs one oracle evaluation, exceeding the claimed bound
`⌊max_pilot/increment⌋ + 1 = 0`; and with increment 0 (non-positive) and the
same infeasible starting rate -1 the loop still terminates (clamping to 0 at
the first iteration), so "increment ≤ 0 with an infeasible starting rate" does
not make the loop non-terminating. -/
theorem C10_counterexample :
    rateSearch (fun _ => false) 1 (searchFuel 1 (-1)) (-1) = some (0, 1) ∧
    ¬((1 : ℤ) ≤ ⌊(-1 : ℚ) / 1⌋ + 1) ∧
    rateSearch (fun _ => false) 0 1 (-1) = some (0, 1) := by
  refine ⟨?_, by norm_num, ?_⟩
  · have hfl : ⌊(-1 : ℚ) / 1⌋ = -1 := by norm_num
    rw [searchFuel, hfl]
    show rateSearch (fun _ => false) 1 (0 + 1) (-1) = some (0, 1)
    rw [rateSearch]
    simp only [Bool.false_eq_true, if_false]
    rw [if_pos (show (-1 : ℚ) - 1 < 0 by norm_num)]
  · show rateSearch (fun _ => false) 0 (0 + 1) (-1) = some (0, 1)
    rw [rateSearch]
    simp only [Bool.false_eq_true, if_false]
    rw [if_pos (show (-1 : ℚ) - 0 < 0 by norm_num)]

/-- C10 (amended): with positive increment and non-negative ceiling the search
loop terminates within the provided fuel, performing at most
`⌊max_pilot/increment⌋ + 1` oracle evaluations (with a negative ceiling it
terminates after exactly one evaluation); the constructor stores any increment
unvalidated; and strict positivity is necessary: with increment ≤ 0, a
non-negative starting rate, and an oracle rejecting every non-negative rate,
the loop exhausts any amount of fuel (the Python loop never terminates). -/
theorem C10_loop_termination (f : ℚ → Bool) (inc ub : ℚ) :
    (0 < inc → 0 ≤ ub →
      ∃ q n, rateSearch f inc (searchFuel inc ub) ub = some (q, n) ∧
        (n : ℤ) ≤ ⌊ub / inc⌋ + 1) ∧
    (0 < inc → ub < 0 → ∃ q, rateSearch f inc (searchFuel inc ub) ub = some (q, 1)) ∧
    (∀ increment : ℚ, (EarliestDeadlineFirstAlgo.init increment)._increment = increment) ∧
    (inc ≤ 0 → 0 ≤ ub → (∀ q, 0 ≤ q → f q = false) →
      ∀ fuel, rateSearch f inc fuel ub = none) := by
  refine ⟨?_, ?_, fun _ => rfl, ?_⟩
  · intro hinc hub
    exact ⟨searchRate f inc ub, searchCount f inc ub, searchResult_eq hinc f ub,
      rateSearch_count hinc f _ ub _ _ hub (searchResult_eq hinc f ub)⟩
  · intro hinc hub
    rw [searchFuel]
    cases hf : f ub with
    | true =>
      refine ⟨ub, ?_⟩
      rw [rateSearch, hf]
      simp
    | false =>
      refine ⟨0, ?_⟩
      rw [rateSearch, hf]
      simp only [Bool.false_eq_true, if_false]
      rw [if_pos (show ub - inc < 0 by linarith)]
  · intro hinc hub hrej fuel
    exact rateSearch_none_of_nonpos hinc hrej fuel ub hub

/-- Witness for C10: increment 1 with ceiling 0 terminates within the claimed
bound; increment 0 with ceiling 0 and an always-rejecting oracle exhausts
fuel 1. -/
theorem C10_loop_termination_witness :
    (∃ q n, rateSearch (fun _ => false) 1 (searchFuel 1 0) 0 = some (q, n) ∧
      (n : ℤ) ≤ ⌊(0 : ℚ) / 1⌋ + 1) ∧
    rateSearch (fun _ => false) 0 1 0 = none :=
  ⟨(C10_loop_termination (fun _ => false) 1 0).1 one_pos le_rfl,
   (C10_loop_termination (fun _ => false) 0 0).2.2.2 le_rfl le_rfl (fun _ _ => rfl) 1⟩
